import Mathlib

/-!
# Verification of the DDQN traffic-control training engine

The repository ships two driver notebooks (`src/Scripts/Example_single_run.ipynb`,
`src/Scripts/Example_gridsearch.ipynb`) that call into the training engine
(`simulation`, `tools`): the ReplayMemory ring buffer, the policy family,
the double-DQN agent, the training loop and the grid-search harness.  The
engine modules themselves are not part of the checked-in sources, so every
component below is modelled from the specification's description of it and
the notebooks' parameterization, and the claims are settled against these
models.
-/

namespace DDQN

/-- Modelled from the spec: a Transition is
`(state, action, reward, next_state, terminal)`, with states as fixed-length
numeric vectors (rationals stand in for floats), actions as discrete
indices, and a boolean terminal flag.  Immutable once recorded. -/
structure Transition where
  state : List ℚ
  action : Nat
  reward : ℚ
  next_state : List ℚ
  terminal : Bool
deriving DecidableEq, Repr, Inhabited

/-- Modelled from the spec: `ReplayMemory` (module not in `src/`) is an
ordered-by-insertion ring buffer of Transition with capacity `max_size`
(the notebooks pass `max_size`); `storage` holds the transitions oldest
first. -/
structure ReplayMemory where
  max_size : Nat
  storage : List Transition
deriving DecidableEq, Repr

/-- A freshly constructed, empty replay memory of capacity `c`. -/
def ReplayMemory.empty (c : Nat) : ReplayMemory := ⟨c, []⟩

/-- Modelled from the spec: `push(transition)` inserts at the newest end and
overwrites the oldest entry once at capacity (FIFO eviction). -/
def ReplayMemory.push (m : ReplayMemory) (t : Transition) : ReplayMemory :=
  if m.storage.length < m.max_size then ⟨m.max_size, m.storage ++ [t]⟩
  else ⟨m.max_size, m.storage.tail ++ [t]⟩

/-- Pushing a whole list of transitions in order. -/
def ReplayMemory.pushAll (m : ReplayMemory) (ts : List Transition) : ReplayMemory :=
  ts.foldl ReplayMemory.push m

/-- A concrete numbered transition, used to instantiate scenarios such as
pushing `T1..T5` into a capacity-3 memory. -/
def Tn (n : Nat) : Transition := ⟨[(n : ℚ)], n, (n : ℚ), [(n : ℚ)], false⟩

/-- Modelled from the spec: the error raised when `sample(n)` is requested
while fewer than `n` transitions are stored. -/
inductive SampleError where
  | InsufficientDataError
deriving DecidableEq, Repr

/-- Modelled from the spec: draw `n` pairwise-distinct indices from `pool`,
consuming one pseudo-random number of the stream `rs` per draw (uniform
choice without replacement within one call). -/
def drawIndices : Nat → List Nat → List Nat → List Nat
  | 0, _, _ => []
  | n + 1, pool, rs =>
    if pool.isEmpty then []
    else
      let i := rs.headD 0 % pool.length
      pool.getD i 0 :: drawIndices n (pool.eraseIdx i) rs.tail

/-- Modelled from the spec: `sample(n)` fails with `InsufficientDataError` if
fewer than `n` transitions are stored; otherwise it returns `n` stored
transitions at pairwise-distinct indices together with the (unchanged)
memory.  `rs` is the stream of pseudo-random numbers consumed by the call. -/
def ReplayMemory.sample (m : ReplayMemory) (n : Nat) (rs : List Nat) :
    Except SampleError (List Transition × ReplayMemory) :=
  if m.storage.length < n then .error .InsufficientDataError
  else .ok ((drawIndices n (List.range m.storage.length) rs).map
      (fun i => m.storage.getD i default), m)

/-- A concrete three-transition memory used to exercise `sample`. -/
def mem3 : ReplayMemory := ⟨10, [Tn 1, Tn 2, Tn 3]⟩

/-- Modelled from the spec: index of a maximal entry of an action-value
list, ties broken by lowest index (the greedy selection rule; `0` on the
empty list). -/
def argmax : List ℚ → Nat
  | [] => 0
  | [_] => 0
  | x :: y :: t =>
    if x < (y :: t).getD (argmax (y :: t)) 0 then argmax (y :: t) + 1 else 0

/-- Modelled from the spec: the double-DQN bootstrap targets for a sampled
batch.  `onlineQ` and `targetQ` are the opaque online and target networks'
predict functions (state ↦ action-value list); the target for a terminal
transition is its reward, otherwise reward plus `gamma` times the target
network's value at the action the online network ranks best at
`next_state`. -/
def computeTargets (gamma : ℚ) (onlineQ targetQ : List ℚ → List ℚ)
    (batch : List Transition) : List ℚ :=
  batch.map (fun t =>
    if t.terminal then t.reward
    else t.reward +
      gamma * (targetQ t.next_state).getD (argmax (onlineQ t.next_state)) 0)

/-- A concrete stand-in for the online network's predict function. -/
def oQc : List ℚ → List ℚ := fun s => [s.getD 0 0, s.getD 0 0 + 1, 0]

/-- A concrete stand-in for the target network's predict function. -/
def tQc : List ℚ → List ℚ := fun s => [s.getD 0 0, 2, 3]

/-- Modelled from the spec: whether the training loop issues a fit call when
the `i`-th transition of the run (1-based) is observed.  The burn-in phase
fills the memory to `num_burn_in` transitions with no learning; thereafter
`learn()` runs, gated to every `train_freq`-th step. -/
def learnFires (num_burn_in train_freq i : Nat) : Bool :=
  num_burn_in < i && i % train_freq == 0

/-- Modelled from the spec: the number of fit calls issued over the first `k`
observed transitions of a run. -/
def fitCalls (num_burn_in train_freq : Nat) : Nat → Nat
  | 0 => 0
  | k + 1 => fitCalls num_burn_in train_freq k +
      (if learnFires num_burn_in train_freq (k + 1) then 1 else 0)

/-- The agent's online/target network parameter pair (parameter vectors kept
as an abstract type `α`, the ValueFunction being an external collaborator)
together with the global step counter. -/
structure AgentNets (α : Type) where
  step : Nat
  online : α
  target : α

/-- Modelled from the spec: one training step — the online network takes one
gradient update (opaque here as `update`), and on every
`target_update_freq`-th step the target parameters are overwritten with a
hard copy of the online parameters (no Polyak averaging). -/
def syncStep {α : Type} (freq : Nat) (update : Nat → α → α)
    (s : AgentNets α) : AgentNets α :=
  let online := update (s.step + 1) s.online
  ⟨s.step + 1, online, if (s.step + 1) % freq == 0 then online else s.target⟩

/-- The network pair after `n` training steps from initial parameters `init`
(the target starts as a copy of the online network). -/
def runNets {α : Type} (freq : Nat) (update : Nat → α → α) (init : α) :
    Nat → AgentNets α
  | 0 => ⟨0, init, init⟩
  | n + 1 => syncStep freq update (runNets freq update init n)

/-- Modelled from the spec: the exploration rate of `linDecEpsGreedy` as a
function of the global step — linear interpolation from `1.0` at step 0 down
to the configured `eps` at the decay `horizon`, held constant at `eps`
beyond the horizon. -/
def linDecEps (eps : ℚ) (horizon : Nat) (step : Nat) : ℚ :=
  if horizon ≤ step then eps
  else 1 + (eps - 1) * (step : ℚ) / (horizon : ℚ)

/-- A hyperparameter candidate value as carried by the notebooks' parameter
dictionaries: a string, a rational number, or a boolean. -/
inductive PVal where
  | str : String → PVal
  | num : ℚ → PVal
  | boolean : Bool → PVal
deriving DecidableEq, Repr

/-- Modelled from the spec: `tools.iter_params` (not in `src/`) expands a
parameter-space specification — hyperparameter name mapped to an ordered
candidate list, keys in declaration order — into the Cartesian product of
fully-resolved configurations, ordered lexicographically over declaration
order of keys, then value order within each key. -/
def iter_params : List (String × List PVal) → List (List (String × PVal))
  | [] => [[]]
  | (k, vs) :: rest =>
    vs.flatMap (fun v => (iter_params rest).map (fun c => (k, v) :: c))

/-- The grid-search notebook's `{batch_size: [30,50], policy: [A,B]}`
sub-space. -/
def gridExample : List (String × List PVal) :=
  [("batch_size", [PVal.num 30, PVal.num 50]),
   ("policy", [PVal.str "epsGreedy", PVal.str "linDecEpsGreedy"])]

/-- Modelled from the spec: a Checkpoint persists the step index, episode
index and value-function parameters, sufficient to resume a run. -/
structure Checkpoint where
  episode : Nat
  step : Nat
  params : List ℚ
deriving DecidableEq, Repr

/-- Modelled from the spec: the per-episode summaries produced by continuing
a run from episode counter `ep` and step counter `st` to `fuel` more
episodes; each summary is the pair (episode index, step counter after the
episode), with `epLen` giving each episode's step count. -/
def runEpisodes (epLen : Nat → Nat) : Nat → Nat → Nat → List (Nat × Nat)
  | 0, _, _ => []
  | fuel + 1, ep, st =>
    (ep + 1, st + epLen (ep + 1)) ::
      runEpisodes epLen fuel (ep + 1) (st + epLen (ep + 1))

/-- Modelled from the spec: resuming from a checkpoint continues the episode
and step counters from where they left off, running the remaining
`num_episodes - ck.episode` episodes. -/
def resumeTraining (epLen : Nat → Nat) (num_episodes : Nat)
    (ck : Checkpoint) : List (Nat × Nat) :=
  runEpisodes epLen (num_episodes - ck.episode) ck.episode ck.step

/-- Modelled from the spec: a per-run failure — an `EnvironmentError`
propagated unchanged from the Environment adapter (e.g. a simulator
crash). -/
inductive RunError where
  | EnvironmentError (msg : String)
deriving DecidableEq, Repr

/-- Modelled from the spec: a configuration-time contract violation
(`ConfigurationError`), e.g. an empty candidate list, which must fail fast
before any run starts. -/
inductive ConfigError where
  | ConfigurationError (key : String)
deriving DecidableEq, Repr

/-- Modelled from the spec: a per-run scalar evaluation metric (mean
delay), collected into the rankable results table. -/
structure EvalResult where
  mean_delay : ℚ
deriving DecidableEq, Repr

/-- Modelled from the spec: validate the parameter-space specification
before committing any resources — an empty candidate list is a
`ConfigurationError`. -/
def validateSpace : List (String × List PVal) → Except ConfigError Unit
  | [] => .ok ()
  | (k, vs) :: rest =>
    if vs.isEmpty then .error (.ConfigurationError k) else validateSpace rest

/-- Modelled from the spec: `tools.gridsearch` (not in `src/`) validates the
space, then executes every expanded run configuration independently,
recording each run's outcome — success or its `EnvironmentError` failure
marker — in the aggregate results table; a per-run failure never aborts the
sibling runs, while a configuration-time error aborts before any run
starts. -/
def gridsearch (space : List (String × List PVal))
    (runOne : List (String × PVal) → Except RunError EvalResult) :
    Except ConfigError (List (List (String × PVal) × Except RunError EvalResult)) :=
  match validateSpace space with
  | .error e => .error e
  | .ok () => .ok ((iter_params space).map (fun c => (c, runOne c)))

/-- A concrete runner that crashes with an `EnvironmentError` on exactly one
configuration of `gridExample` and succeeds on every other. -/
def runOneW : List (String × PVal) → Except RunError EvalResult :=
  fun c =>
    if c = [("batch_size", PVal.num 30), ("policy", PVal.str "epsGreedy")]
    then .error (.EnvironmentError "simulator crash") else .ok ⟨42⟩

/-- A malformed parameter space: `eps` has an empty candidate list. -/
def badSpace : List (String × List PVal) := [("eps", [])]

/-- The hyperparameter names the engine recognizes, as documented by the
parameter tables of both notebooks. -/
def recognizedKeys : List String :=
  ["experiment_id", "q_network_type", "gamma", "target_update_freq",
   "train_freq", "num_burn_in", "batch_size", "optimizer", "max_ep_length",
   "policy", "eps", "network", "demand", "use_gui", "delta_time", "reward",
   "max_size", "num_episodes", "eval_fixed", "episode_recording",
   "model_checkpoint"]

/-- Modelled from the spec: the engine's default-binding step (its code is
not in `src/`).  A Run configuration must be fully resolved (§3, §4.5), and
the spec's `ConfigurationError` conditions (empty candidate list, unknown
policy tag, non-positive capacity/batch size) do not include omitted keys —
the grid-search notebook omits eight recognized keys — so every recognized
hyperparameter the caller omitted is bound to its default `d k` rather than
raising an error. -/
def resolveConfig (d : String → PVal) (c : List (String × PVal)) :
    List (String × PVal) :=
  recognizedKeys.map (fun k => (k, (c.lookup k).getD (d k)))

/-- The resolved grid expansion: Cartesian product, then default-binding of
omitted recognized hyperparameters. -/
def iter_params_resolved (d : String → PVal)
    (space : List (String × List PVal)) : List (List (String × PVal)) :=
  (iter_params space).map (resolveConfig d)

/-- The grid-search notebook's full parameter space, which omits the
recognized keys `num_burn_in`, `q_network_type`, `optimizer`, `demand`,
`use_gui`, `eval_fixed`, `episode_recording` and `model_checkpoint`. -/
def gridSpaceFull : List (String × List PVal) :=
  [("experiment_id", [PVal.str "Test_gridsearch"]),
   ("batch_size", [PVal.num 30, PVal.num 50]),
   ("target_update_freq", [PVal.num 5000, PVal.num 10000]),
   ("gamma", [PVal.num (99 / 100)]),
   ("train_freq", [PVal.num 1]),
   ("max_size", [PVal.num 10000]),
   ("max_ep_length", [PVal.num 1000]),
   ("policy", [PVal.str "epsGreedy", PVal.str "linDecEpsGreedy"]),
   ("eps", [PVal.num (1 / 10)]),
   ("delta_time", [PVal.num 10]),
   ("reward", [PVal.str "balanced"]),
   ("network", [PVal.str "simple"]),
   ("num_episodes", [PVal.num 50])]

/-- The first configuration produced for `gridSpaceFull` (first candidate of
every key). -/
def c0 : List (String × PVal) :=
  [("experiment_id", PVal.str "Test_gridsearch"), ("batch_size", PVal.num 30),
   ("target_update_freq", PVal.num 5000), ("gamma", PVal.num (99 / 100)),
   ("train_freq", PVal.num 1), ("max_size", PVal.num 10000),
   ("max_ep_length", PVal.num 1000), ("policy", PVal.str "epsGreedy"),
   ("eps", PVal.num (1 / 10)), ("delta_time", PVal.num 10),
   ("reward", PVal.str "balanced"), ("network", PVal.str "simple"),
   ("num_episodes", PVal.num 50)]

/-- A concrete default assignment for the witness. -/
def dflt : String → PVal := fun _ => PVal.boolean false

/-! ## Definitions continue above; theorems follow. -/

theorem ReplayMemory.pushAll_append (m : ReplayMemory) (ts : List Transition)
    (t : Transition) : m.pushAll (ts ++ [t]) = (m.pushAll ts).push t := by
  simp [ReplayMemory.pushAll]

theorem ReplayMemory.push_max_size (m : ReplayMemory) (t : Transition) :
    (m.push t).max_size = m.max_size := by
  unfold ReplayMemory.push
  split <;> rfl

theorem ReplayMemory.pushAll_max_size (m : ReplayMemory) (ts : List Transition) :
    (m.pushAll ts).max_size = m.max_size := by
  induction ts generalizing m with
  | nil => rfl
  | cons t ts ih =>
    have := ih (m.push t)
    simp only [ReplayMemory.pushAll] at this ⊢
    rw [List.foldl_cons, this, ReplayMemory.push_max_size]

/-- Core ring-buffer characterisation: starting from an empty memory of positive
capacity `C`, after pushing the list `ts` the storage is exactly the suffix of
`ts` consisting of its `min (length ts) C` most recent elements. -/
theorem ReplayMemory.pushAll_storage (C : Nat) (hC : 0 < C) (ts : List Transition) :
    ((ReplayMemory.empty C).pushAll ts).storage = ts.drop (ts.length - C) := by
  induction ts using List.reverseRecOn with
  | nil => simp [ReplayMemory.pushAll, ReplayMemory.empty]
  | append_singleton ts t ih =>
    rw [ReplayMemory.pushAll_append]
    unfold ReplayMemory.push
    rw [ReplayMemory.pushAll_max_size, ih]
    by_cases h : ts.length < C
    · have hlen : (ts.drop (ts.length - C)).length = ts.length := by
        simp [Nat.sub_eq_zero_of_le (Nat.le_of_lt h)]
      rw [if_pos (by simpa [ReplayMemory.empty, hlen] using h)]
      have h1 : ts.length + 1 - C = 0 := Nat.sub_eq_zero_of_le h
      simp [ReplayMemory.empty, Nat.sub_eq_zero_of_le (Nat.le_of_lt h), h1]
    · push_neg at h
      have hlen : (ts.drop (ts.length - C)).length = C := by
        simp [Nat.sub_sub_self h]
      rw [if_neg (by simp [ReplayMemory.empty, hlen])]
      have htail : (ts.drop (ts.length - C)).tail = ts.drop (ts.length - C + 1) := by
        rw [List.tail_drop]
      have hsub : ts.length + 1 - C = ts.length - C + 1 := by omega
      have hdrop : (ts ++ [t]).drop (ts.length - C + 1) =
          ts.drop (ts.length - C + 1) ++ [t] := by
        refine List.drop_append_of_le_length ?_
        omega
      simp [ReplayMemory.empty, htail, hsub, hdrop]

/-- C2: for every capacity `C > 0` and every sequence of `N > C` push calls on a
ReplayMemory of capacity `C`, the memory afterwards holds exactly `C`
transitions, namely the `C` most recently pushed ones (FIFO eviction of the
oldest), and at every intermediate point `length ≤ capacity` holds. -/
theorem claim_C2 (C : Nat) (hC : 0 < C) (ts : List Transition)
    (hN : C < ts.length) :
    ((ReplayMemory.empty C).pushAll ts).storage.length = C ∧
    ((ReplayMemory.empty C).pushAll ts).storage = ts.drop (ts.length - C) ∧
    ∀ k : Nat, ((ReplayMemory.empty C).pushAll (ts.take k)).storage.length ≤ C := by
  refine ⟨?_, ReplayMemory.pushAll_storage C hC ts, ?_⟩
  · rw [ReplayMemory.pushAll_storage C hC ts]
    simp [Nat.sub_sub_self (Nat.le_of_lt hN)]
  · intro k
    rw [ReplayMemory.pushAll_storage C hC (ts.take k)]
    simp only [List.length_drop]
    omega

/-- C2 witness: pushing `T1..T5` into a capacity-3 memory leaves exactly
`[T3, T4, T5]`, of length 3. -/
theorem claim_C2_witness :
    ((ReplayMemory.empty 3).pushAll [Tn 1, Tn 2, Tn 3, Tn 4, Tn 5]).storage.length = 3 ∧
    ((ReplayMemory.empty 3).pushAll [Tn 1, Tn 2, Tn 3, Tn 4, Tn 5]).storage =
      [Tn 3, Tn 4, Tn 5] := by
  have h := claim_C2 3 (by decide) [Tn 1, Tn 2, Tn 3, Tn 4, Tn 5] (by decide)
  exact ⟨h.1, by rw [h.2.1]; rfl⟩

theorem getD_not_mem_eraseIdx :
    ∀ (l : List Nat) (i : Nat), l.Nodup → i < l.length → l.getD i 0 ∉ l.eraseIdx i := by
  intro l
  induction l with
  | nil => intro i _ h; simp at h
  | cons x xs ih =>
    intro i hnd hi
    cases i with
    | zero =>
      simpa [List.eraseIdx] using (List.nodup_cons.mp hnd).1
    | succ j =>
      have hj : j < xs.length := by simpa using hi
      have hxs : xs.Nodup := (List.nodup_cons.mp hnd).2
      have hmem : xs.getD j 0 ∈ xs := by
        rw [List.getD_eq_getElem xs 0 hj]
        exact List.getElem_mem hj
      have hne : xs.getD j 0 ≠ x := by
        intro he
        exact (List.nodup_cons.mp hnd).1 (he ▸ hmem)
      simp only [List.getD_cons_succ, List.eraseIdx_cons_succ, List.mem_cons]
      push_neg
      exact ⟨hne, ih j hxs hj⟩

theorem drawIndices_spec :
    ∀ (n : Nat) (pool rs : List Nat), pool.Nodup → n ≤ pool.length →
      (drawIndices n pool rs).length = n ∧ (drawIndices n pool rs).Nodup ∧
      ∀ x ∈ drawIndices n pool rs, x ∈ pool := by
  intro n
  induction n with
  | zero => intro pool rs _ _; simp [drawIndices]
  | succ k ih =>
    intro pool rs hnd hlen
    have hpos : 0 < pool.length := Nat.lt_of_lt_of_le (Nat.succ_pos k) hlen
    have hne : ¬ pool.isEmpty := by
      cases pool with
      | nil => simp at hpos
      | cons a l => simp
    have hi : rs.headD 0 % pool.length < pool.length := Nat.mod_lt _ hpos
    have herlen : (pool.eraseIdx (rs.headD 0 % pool.length)).length = pool.length - 1 :=
      List.length_eraseIdx_of_lt hi
    have hsub : (pool.eraseIdx (rs.headD 0 % pool.length)).Sublist pool :=
      List.eraseIdx_sublist pool (rs.headD 0 % pool.length)
    have hernd : (pool.eraseIdx (rs.headD 0 % pool.length)).Nodup := hnd.sublist hsub
    have hk : k ≤ (pool.eraseIdx (rs.headD 0 % pool.length)).length := by omega
    obtain ⟨ihlen, ihnd, ihmem⟩ := ih (pool.eraseIdx (rs.headD 0 % pool.length)) rs.tail hernd hk
    have hgd : pool.getD (rs.headD 0 % pool.length) 0 ∈ pool := by
      rw [List.getD_eq_getElem pool 0 hi]
      exact List.getElem_mem hi
    refine ⟨?_, ?_, ?_⟩
    · simp only [drawIndices, if_neg hne, List.length_cons, ihlen]
    · simp only [drawIndices, if_neg hne, List.nodup_cons]
      refine ⟨fun hmem => ?_, ihnd⟩
      exact getD_not_mem_eraseIdx pool _ hnd hi (ihmem _ hmem)
    · intro x hx
      simp only [drawIndices, if_neg hne, List.mem_cons] at hx
      rcases hx with h | h
      · exact h ▸ hgd
      · exact hsub.mem (ihmem x h)

/-- C3: `sample(n)` fails with `InsufficientDataError` exactly when fewer than
`n` transitions are stored; with at least `n` stored it returns exactly `n`
stored transitions, drawn at pairwise-distinct indices within the one call,
and the memory itself is returned unchanged. -/
theorem claim_C3 (m : ReplayMemory) (n : Nat) (rs : List Nat) :
    (m.sample n rs = .error .InsufficientDataError ↔ m.storage.length < n) ∧
    (n ≤ m.storage.length →
      ∃ idxs : List Nat,
        m.sample n rs = .ok (idxs.map (fun i => m.storage.getD i default), m) ∧
        idxs.Nodup ∧ idxs.length = n ∧ (∀ i ∈ idxs, i < m.storage.length) ∧
        ∀ t ∈ idxs.map (fun i => m.storage.getD i default), t ∈ m.storage) := by
  constructor
  · constructor
    · intro h
      by_contra hge
      simp only [ReplayMemory.sample, if_neg hge] at h
      exact Except.noConfusion h
    · intro h
      simp only [ReplayMemory.sample, if_pos h]
  · intro hle
    have hnlt : ¬ m.storage.length < n := Nat.not_lt.mpr hle
    obtain ⟨hlen, hnd, hmem⟩ :=
      drawIndices_spec n (List.range m.storage.length) rs (List.nodup_range _)
        (by simpa using hle)
    refine ⟨drawIndices n (List.range m.storage.length) rs, ?_, hnd, hlen, ?_, ?_⟩
    · simp only [ReplayMemory.sample, if_neg hnlt]
    · intro i hi
      exact List.mem_range.mp (hmem i hi)
    · intro t ht
      obtain ⟨i, hi, hti⟩ := List.mem_map.mp ht
      have hilt : i < m.storage.length := List.mem_range.mp (hmem i hi)
      rw [← hti, List.getD_eq_getElem m.storage default hilt]
      exact List.getElem_mem hilt

/-- C3 witness: on a three-transition memory, `sample 5` fails with
`InsufficientDataError`, while `sample 2` succeeds with two stored
transitions and the memory unchanged. -/
theorem claim_C3_witness :
    mem3.sample 5 [7, 5] = .error .InsufficientDataError ∧
    ∃ idxs : List Nat,
      mem3.sample 2 [7, 5] = .ok (idxs.map (fun i => mem3.storage.getD i default), mem3) ∧
      idxs.Nodup ∧ idxs.length = 2 := by
  constructor
  · exact (claim_C3 mem3 5 [7, 5]).1.mpr (by decide)
  · obtain ⟨idxs, hok, hnd, hlen, -, -⟩ := (claim_C3 mem3 2 [7, 5]).2 (by decide)
    exact ⟨idxs, hok, hnd, hlen⟩

/-- `argmax` really picks a maximising index: every entry of the list is at
most the entry at `argmax`. -/
theorem argmax_is_max :
    ∀ (l : List ℚ) (j : Nat), j < l.length → l.getD j 0 ≤ l.getD (argmax l) 0 := by
  intro l
  induction l with
  | nil => intro j hj; simp at hj
  | cons x xs ih =>
    intro j hj
    cases xs with
    | nil =>
      have hj0 : j = 0 := by
        simp only [List.length_cons, List.length_nil] at hj
        omega
      subst hj0
      simp [argmax]
    | cons y t =>
      by_cases hlt : x < (y :: t).getD (argmax (y :: t)) 0
      · have hax : argmax (x :: y :: t) = argmax (y :: t) + 1 := by
          simp only [argmax, if_pos hlt]
        rw [hax, List.getD_cons_succ]
        cases j with
        | zero =>
          rw [List.getD_cons_zero]
          exact le_of_lt hlt
        | succ k =>
          rw [List.getD_cons_succ]
          exact ih k (by simpa using hj)
      · have hax : argmax (x :: y :: t) = 0 := by
          simp only [argmax, if_neg hlt]
        rw [hax, List.getD_cons_zero]
        push_neg at hlt
        cases j with
        | zero =>
          rw [List.getD_cons_zero]
        | succ k =>
          rw [List.getD_cons_succ]
          exact le_trans (ih k (by simpa using hj)) hlt

/-- C1: each bootstrap target computed during `learn()` has double-DQN
semantics: it equals the transition's reward when terminal, and otherwise
reward plus `gamma` times the target network's value at the action index the
online network ranks best at `next_state` — and that index really maximises
the online network's action-values. -/
theorem claim_C1 (gamma : ℚ) (onlineQ targetQ : List ℚ → List ℚ)
    (batch : List Transition) (i : Nat) (h : i < batch.length) :
    (computeTargets gamma onlineQ targetQ batch).getD i 0 =
      (if (batch.getD i default).terminal then (batch.getD i default).reward
       else (batch.getD i default).reward +
         gamma * (targetQ (batch.getD i default).next_state).getD
           (argmax (onlineQ (batch.getD i default).next_state)) 0) ∧
    ∀ j < (onlineQ (batch.getD i default).next_state).length,
      (onlineQ (batch.getD i default).next_state).getD j 0 ≤
        (onlineQ (batch.getD i default).next_state).getD
          (argmax (onlineQ (batch.getD i default).next_state)) 0 := by
  constructor
  · have hlen : i < (computeTargets gamma onlineQ targetQ batch).length := by
      simpa [computeTargets] using h
    rw [List.getD_eq_getElem _ 0 hlen]
    simp only [computeTargets, List.getElem_map]
    rw [List.getD_eq_getElem batch default h]
  · intro j hj
    exact argmax_is_max _ j hj

/-- C1 witness: for a concrete non-terminal transition and concrete online and
target networks, the computed target is reward plus discounted target-network
value at the online argmax. -/
theorem claim_C1_witness :
    (computeTargets (99 / 100) oQc tQc [Tn 1]).getD 0 0 =
      (Tn 1).reward + (99 / 100) *
        (tQc (Tn 1).next_state).getD (argmax (oQc (Tn 1).next_state)) 0 := by
  have h := (claim_C1 (99 / 100) oQc tQc [Tn 1] 0 (by decide)).1
  rw [h]
  rw [show (([Tn 1] : List Transition).getD 0 default) = Tn 1 from rfl]
  rw [if_neg (by decide : ¬ (Tn 1).terminal = true)]

/-- C4: while the replay memory (holding `k` transitions after the `k`-th
observation) has not exceeded `num_burn_in` transitions, `learn()` issues no
fit call; with `train_freq = 1`, every transition after burn-in triggers
exactly one fit call, so after `i ≥ num_burn_in` transitions exactly
`i - num_burn_in` fit calls have been issued. -/
theorem claim_C4 (b f : Nat) :
    (∀ k, k ≤ b → fitCalls b f k = 0) ∧
    (∀ i, b < i → fitCalls b 1 i = fitCalls b 1 (i - 1) + 1) ∧
    (∀ i, b ≤ i → fitCalls b 1 i = i - b) := by
  have hzero : ∀ k, k ≤ b → fitCalls b f k = 0 := by
    intro k
    induction k with
    | zero => intro _; rfl
    | succ j ih =>
      intro hj
      have hfire : learnFires b f (j + 1) = false := by
        simp only [learnFires, Bool.and_eq_false_iff]
        left
        simpa using Nat.not_lt.mpr hj
      simp only [fitCalls, hfire, if_neg (Bool.false_ne_true), ih (Nat.le_of_succ_le hj),
        Nat.zero_add]
  have hone : ∀ k, k ≤ b → fitCalls b 1 k = 0 := by
    intro k
    induction k with
    | zero => intro _; rfl
    | succ j ih =>
      intro hj
      have hfire : learnFires b 1 (j + 1) = false := by
        simp only [learnFires, Bool.and_eq_false_iff]
        left
        simpa using Nat.not_lt.mpr hj
      simp only [fitCalls, hfire, if_neg (Bool.false_ne_true), ih (Nat.le_of_succ_le hj),
        Nat.zero_add]
  have hstep : ∀ i, b < i → fitCalls b 1 i = fitCalls b 1 (i - 1) + 1 := by
    intro i hi
    cases i with
    | zero => omega
    | succ j =>
      have hfire : learnFires b 1 (j + 1) = true := by
        simp only [learnFires, Bool.and_eq_true]
        exact ⟨by simpa using hi, by simp [Nat.mod_one]⟩
      simp only [fitCalls, hfire, Nat.succ_sub_one]
      simp
  refine ⟨hzero, hstep, ?_⟩
  intro i hi
  induction i with
  | zero =>
    rw [show fitCalls b 1 0 = 0 from rfl]
    omega
  | succ j ih =>
    by_cases hj : b ≤ j
    · have := hstep (j + 1) (by omega)
      simp only [Nat.succ_sub_one] at this
      rw [this, ih hj]
      omega
    · have hjb : j + 1 = b := by omega
      rw [hjb, hone b (le_refl b)]
      omega

/-- C4 witness: with `num_burn_in = 200` and `train_freq = 1`, the first 200
transitions trigger zero fit calls, and from the 201st transition onward each
step adds exactly one — five fit calls after 205 transitions. -/
theorem claim_C4_witness :
    fitCalls 200 1 200 = 0 ∧ fitCalls 200 1 201 = fitCalls 200 1 200 + 1 ∧
    fitCalls 200 1 205 = 5 := by
  have h := claim_C4 200 1
  refine ⟨h.1 200 (by decide), ?_, ?_⟩
  · simpa using h.2.1 201 (by decide)
  · simpa using h.2.2 205 (by decide)

theorem runNets_step {α : Type} (freq : Nat) (update : Nat → α → α) (init : α) :
    ∀ n, (runNets freq update init n).step = n := by
  intro n
  induction n with
  | zero => rfl
  | succ m ih => simp only [runNets, syncStep, ih]

theorem runNets_target_succ {α : Type} (freq : Nat) (update : Nat → α → α)
    (init : α) (n : Nat) :
    (runNets freq update init (n + 1)).target =
      if (n + 1) % freq == 0 then (runNets freq update init (n + 1)).online
      else (runNets freq update init n).target := by
  have hon : (runNets freq update init (n + 1)).online =
      update (n + 1) (runNets freq update init n).online := by
    conv_lhs => rw [runNets]
    simp only [syncStep, runNets_step]
  conv_lhs => rw [runNets]
  simp only [syncStep, runNets_step, hon]

/-- C5: the target network's parameters change only at steps that are exact
multiples of `target_update_freq`; immediately after such a sync they are a
hard copy of the online network's current parameters, and at every other step
they are exactly the online parameters as of the most recent sync. -/
theorem claim_C5 {α : Type} (freq : Nat)
    (update : Nat → α → α) (init : α) :
    (∀ n, ¬ freq ∣ (n + 1) →
      (runNets freq update init (n + 1)).target =
        (runNets freq update init n).target) ∧
    (∀ n, freq ∣ n →
      (runNets freq update init n).target = (runNets freq update init n).online) ∧
    (∀ n, (runNets freq update init n).target =
      (runNets freq update init (freq * (n / freq))).online) := by
  have hsucc := runNets_target_succ freq update init
  have hnot : ∀ n, ¬ freq ∣ (n + 1) →
      (runNets freq update init (n + 1)).target =
        (runNets freq update init n).target := by
    intro n hdvd
    rw [hsucc n, if_neg ?_]
    intro hbeq
    exact hdvd (Nat.dvd_iff_mod_eq_zero.mpr (Nat.beq_eq_true_eq _ _ |>.mp hbeq))
  have hdvdcase : ∀ n, freq ∣ n →
      (runNets freq update init n).target = (runNets freq update init n).online := by
    intro n hdvd
    cases n with
    | zero => rfl
    | succ m =>
      rw [hsucc m, if_pos ?_]
      exact Nat.beq_eq_true_eq _ _ |>.mpr (Nat.dvd_iff_mod_eq_zero.mp hdvd)
  refine ⟨hnot, hdvdcase, ?_⟩
  intro n
  induction n with
  | zero =>
    rw [Nat.zero_div, Nat.mul_zero]
    rfl
  | succ m ih =>
    by_cases hdvd : freq ∣ (m + 1)
    · rw [hdvdcase (m + 1) hdvd, Nat.mul_div_cancel' hdvd]
    · rw [hnot m hdvd, ih, Nat.succ_div_of_not_dvd hdvd]

/-- C5 witness: with sync frequency 2, update `p ↦ p + step` on `ℕ` and
initial parameters 0, after step 2 the target is a hard copy of the online
parameters; at step 3 it is unchanged from step 2 and still equals the online
parameters as of step 2 (value 3, not the online value 6). -/
theorem claim_C5_witness :
    (runNets 2 (fun n p => p + n) 0 2).target = (runNets 2 (fun n p => p + n) 0 2).online ∧
    (runNets 2 (fun n p => p + n) 0 3).target = (runNets 2 (fun n p => p + n) 0 2).target ∧
    (runNets 2 (fun n p => p + n) 0 3).target = (runNets 2 (fun n p => p + n) 0 2).online ∧
    (runNets 2 (fun n p => p + n) 0 3).target = 3 ∧
    (runNets 2 (fun n p => p + n) 0 3).online = 6 := by
  have h := claim_C5 2 (fun n p => p + n) 0
  refine ⟨h.2.1 2 (by decide), h.1 2 (by decide), ?_, by rfl, by rfl⟩
  have h3 := h.2.2 3
  simpa using h3

/-- C6: for `linDecEpsGreedy` with decay `horizon > 0` and configured
`eps ≤ 1`, the exploration rate is `1.0` at step 0, equals `eps` at the
horizon, is monotonically non-increasing, and stays constant at `eps` for
every step beyond the horizon. -/
theorem claim_C6 (eps : ℚ) (horizon : Nat) (h0 : 0 < horizon) (h1 : eps ≤ 1) :
    linDecEps eps horizon 0 = 1 ∧
    linDecEps eps horizon horizon = eps ∧
    (∀ s1 s2 : Nat, s1 ≤ s2 → linDecEps eps horizon s2 ≤ linDecEps eps horizon s1) ∧
    (∀ s : Nat, horizon ≤ s → linDecEps eps horizon s = eps) := by
  have hq : (0 : ℚ) < (horizon : ℚ) := by exact_mod_cast h0
  have hmono : ∀ a b : Nat, a ≤ b →
      1 + (eps - 1) * (b : ℚ) / (horizon : ℚ) ≤
        1 + (eps - 1) * (a : ℚ) / (horizon : ℚ) := by
    intro a b hab
    have h2 : (eps - 1) * (b : ℚ) ≤ (eps - 1) * (a : ℚ) :=
      mul_le_mul_of_nonpos_left (by exact_mod_cast hab) (by linarith)
    have h3 : (eps - 1) * (b : ℚ) / (horizon : ℚ) ≤
        (eps - 1) * (a : ℚ) / (horizon : ℚ) := by
      apply div_le_div_of_nonneg_right h2 hq.le
    linarith
  have hfloor : ∀ s : Nat, (s : ℚ) ≤ (horizon : ℚ) →
      eps ≤ 1 + (eps - 1) * (s : ℚ) / (horizon : ℚ) := by
    intro s hsh
    have hdiv : (s : ℚ) / (horizon : ℚ) ≤ 1 := (div_le_one hq).mpr hsh
    have h2 : (eps - 1) * ((s : ℚ) / (horizon : ℚ)) ≥ (eps - 1) * 1 :=
      mul_le_mul_of_nonpos_left hdiv (by linarith)
    rw [mul_div_assoc]
    linarith
  refine ⟨?_, ?_, ?_, ?_⟩
  · rw [linDecEps, if_neg (by omega)]
    simp
  · rw [linDecEps, if_pos (le_refl horizon)]
  · intro s1 s2 h12
    by_cases hs2 : horizon ≤ s2
    · rw [linDecEps, if_pos hs2]
      by_cases hs1 : horizon ≤ s1
      · rw [linDecEps, if_pos hs1]
      · rw [linDecEps, if_neg hs1]
        have hle : s1 ≤ horizon := le_of_lt (Nat.lt_of_not_le hs1)
        exact hfloor s1 (by exact_mod_cast hle)
    · have hs1 : ¬ horizon ≤ s1 := fun h => hs2 (h.trans h12)
      rw [linDecEps, if_neg hs2, linDecEps, if_neg hs1]
      exact hmono s1 s2 h12
  · intro s hs
    rw [linDecEps, if_pos hs]

/-- C6 witness: with `eps = 1/10` and a decay horizon of 5 steps, the
schedule starts at 1, reaches `1/10` at step 5, is non-increasing from step
1 to step 3, and still equals `1/10` at step 20. -/
theorem claim_C6_witness :
    linDecEps (1 / 10) 5 0 = 1 ∧ linDecEps (1 / 10) 5 5 = 1 / 10 ∧
    linDecEps (1 / 10) 5 3 ≤ linDecEps (1 / 10) 5 1 ∧
    linDecEps (1 / 10) 5 20 = 1 / 10 := by
  have h := claim_C6 (1 / 10) 5 (by decide) (by norm_num)
  exact ⟨h.1, h.2.1, h.2.2.1 1 3 (by decide), h.2.2.2 20 (by decide)⟩

/-- C7: `iter_params` yields exactly the Cartesian product of the candidate
lists: the number of configurations is the product of the candidate counts,
a configuration is produced exactly when it picks, key by key in declaration
order, one candidate of each key, and (when each candidate list is
duplicate-free) no configuration is produced twice.  The order is the
deterministic lexicographic order fixed by the recursion itself. -/
theorem claim_C7 (ps : List (String × List PVal)) :
    (iter_params ps).length = (ps.map (fun kv => kv.2.length)).prod ∧
    (∀ c, c ∈ iter_params ps ↔
      List.Forall₂ (fun kv kvs => kv.1 = kvs.1 ∧ kv.2 ∈ kvs.2) c ps) ∧
    ((∀ kv ∈ ps, kv.2.Nodup) → (iter_params ps).Nodup) := by
  induction ps with
  | nil =>
    refine ⟨rfl, ?_, fun _ => by simp [iter_params]⟩
    intro c
    simp [iter_params, List.forall₂_nil_right_iff, eq_comm]
  | cons kv rest ih =>
    obtain ⟨k, vs⟩ := kv
    refine ⟨?_, ?_, ?_⟩
    · simp only [iter_params, List.length_flatMap, List.map_cons, List.prod_cons]
      have hconst : (List.length ∘ fun v : PVal =>
          List.map (fun c => (k, v) :: c) (iter_params rest)) =
          fun _ : PVal => (iter_params rest).length := by
        funext v
        simp
      rw [hconst, List.map_const', List.sum_replicate, smul_eq_mul, ih.1]
    · intro c
      simp only [iter_params, List.mem_flatMap, List.mem_map,
        List.forall₂_cons_right_iff]
      constructor
      · rintro ⟨v, hv, c', hc', rfl⟩
        exact ⟨(k, v), c', ⟨rfl, hv⟩, (ih.2.1 c').mp hc', rfl⟩
      · rintro ⟨a, c', ⟨ha1, ha2⟩, hf, rfl⟩
        exact ⟨a.2, ha2, c', (ih.2.1 c').mpr hf, by rw [← ha1]⟩
    · intro hnd
      have hvs : vs.Nodup := hnd (k, vs) (List.mem_cons_self _ _)
      have hrest : (iter_params rest).Nodup :=
        ih.2.2 (fun kv hkv => hnd kv (List.mem_cons_of_mem _ hkv))
      refine List.nodup_flatMap.mpr ⟨?_, ?_⟩
      · intro v _
        exact hrest.map (List.cons_injective)
      · refine hvs.imp ?_
        intro v v' hne
        intro c hc hc'
        simp only [List.mem_map] at hc hc'
        obtain ⟨c1, _, heq1⟩ := hc
        obtain ⟨c2, _, heq2⟩ := hc'
        rw [← heq1] at heq2
        injection heq2 with h1 _
        exact hne (by injection h1 with _ h2; exact h2.symm)

/-- C7 witness: the notebook sub-space `{batch_size: [30,50], policy: [A,B]}`
expands to exactly these 4 distinct, fully-resolved configurations, in
lexicographic declaration order. -/
theorem claim_C7_witness :
    (iter_params gridExample).length = 4 ∧ (iter_params gridExample).Nodup ∧
    iter_params gridExample =
      [[("batch_size", PVal.num 30), ("policy", PVal.str "epsGreedy")],
       [("batch_size", PVal.num 30), ("policy", PVal.str "linDecEpsGreedy")],
       [("batch_size", PVal.num 50), ("policy", PVal.str "epsGreedy")],
       [("batch_size", PVal.num 50), ("policy", PVal.str "linDecEpsGreedy")]] := by
  have h := claim_C7 gridExample
  refine ⟨by rw [h.1]; rfl, h.2.2 (by decide), by rfl⟩

theorem runEpisodes_spec (epLen : Nat → Nat) :
    ∀ (fuel ep st : Nat),
      (runEpisodes epLen fuel ep st).length = fuel ∧
      (runEpisodes epLen fuel ep st).map Prod.fst = List.range' (ep + 1) fuel := by
  intro fuel
  induction fuel with
  | zero => intro ep st; exact ⟨rfl, rfl⟩
  | succ f ih =>
    intro ep st
    obtain ⟨ihlen, ihmap⟩ := ih (ep + 1) (st + epLen (ep + 1))
    refine ⟨by simp [runEpisodes, ihlen], ?_⟩
    rw [List.range'_succ]
    simp only [runEpisodes, List.map_cons, ihmap]

/-- C8: resuming a run of `N` episodes from a checkpoint taken after episode
`e ≤ N` produces exactly `N - e` further per-episode summaries, whose episode
indices are exactly `e+1, …, N` in order — each completed episode appears
once and episodes `1..e` are never re-run — and the first resumed episode
continues the step counter from the checkpoint's value. -/
theorem claim_C8 (epLen : Nat → Nat) (N : Nat) (ck : Checkpoint)
    (h : ck.episode ≤ N) :
    (resumeTraining epLen N ck).length = N - ck.episode ∧
    (resumeTraining epLen N ck).map Prod.fst =
      List.range' (ck.episode + 1) (N - ck.episode) ∧
    ((resumeTraining epLen N ck).map Prod.fst).Nodup ∧
    (∀ s ∈ resumeTraining epLen N ck, ck.episode < s.1 ∧ s.1 ≤ N) ∧
    (ck.episode < N →
      (resumeTraining epLen N ck).head? =
        some (ck.episode + 1, ck.step + epLen (ck.episode + 1))) := by
  obtain ⟨hlen, hmap⟩ := runEpisodes_spec epLen (N - ck.episode) ck.episode ck.step
  refine ⟨hlen, hmap, ?_, ?_, ?_⟩
  · simp only [resumeTraining]
    rw [hmap]
    exact List.nodup_range' _ _
  · intro s hs
    have hmem : s.1 ∈ (resumeTraining epLen N ck).map Prod.fst :=
      List.mem_map.mpr ⟨s, hs, rfl⟩
    simp only [resumeTraining] at hmem
    rw [hmap] at hmem
    have hb := List.mem_range'_1.mp hmem
    omega
  · intro hlt
    have hfuel : ∃ f, N - ck.episode = f + 1 := ⟨N - ck.episode - 1, by omega⟩
    obtain ⟨f, hf⟩ := hfuel
    simp only [resumeTraining, hf, runEpisodes, List.head?_cons]

/-- C8 witness: resuming a checkpoint taken after episode 10 of a 50-episode
run (each episode taking 1000 steps, checkpoint step counter 12345) yields
exactly 40 more episode summaries — episodes 11..50, never 1..10 — starting
with episode 11 ending at step 13345. -/
theorem claim_C8_witness :
    (resumeTraining (fun _ => 1000) 50 ⟨10, 12345, []⟩).length = 40 ∧
    (resumeTraining (fun _ => 1000) 50 ⟨10, 12345, []⟩).map Prod.fst =
      List.range' 11 40 ∧
    (resumeTraining (fun _ => 1000) 50 ⟨10, 12345, []⟩).head? =
      some (11, 13345) := by
  have h := claim_C8 (fun _ => 1000) 50 ⟨10, 12345, []⟩ (by decide)
  exact ⟨h.1, h.2.1, h.2.2.2.2 (by decide)⟩

/-- C9: a configuration-time error aborts the grid search before any run
starts; otherwise the results table holds one entry per expanded
configuration, each paired with its own run outcome — so a run failing with
an `EnvironmentError` is marked failed in the table while every sibling run
still executes and appears with its own result; the grid search as a whole
is never aborted by a per-run failure. -/
theorem claim_C9 (space : List (String × List PVal))
    (runOne : List (String × PVal) → Except RunError EvalResult) :
    (∀ e, validateSpace space = .error e → gridsearch space runOne = .error e) ∧
    (validateSpace space = .ok () →
      gridsearch space runOne =
        .ok ((iter_params space).map (fun c => (c, runOne c))) ∧
      ∀ table, gridsearch space runOne = .ok table →
        table.length = (iter_params space).length ∧
        ∀ c ∈ iter_params space, (c, runOne c) ∈ table) := by
  constructor
  · intro e he
    simp only [gridsearch, he]
  · intro hok
    have hg : gridsearch space runOne =
        .ok ((iter_params space).map (fun c => (c, runOne c))) := by
      simp only [gridsearch, hok]
    refine ⟨hg, ?_⟩
    intro table htable
    rw [hg] at htable
    have heq : table = (iter_params space).map (fun c => (c, runOne c)) :=
      (Except.ok.injEq _ _ |>.mp htable.symm)
    subst heq
    refine ⟨by simp, ?_⟩
    intro c hc
    exact List.mem_map.mpr ⟨c, hc, rfl⟩

/-- C9 witness: the malformed space aborts with `ConfigurationError` before
any run; on the well-formed example space with a runner that crashes on one
configuration, the table still has all 4 entries — the crashed run marked
with its `EnvironmentError` and a sibling with its own successful result. -/
theorem claim_C9_witness :
    gridsearch badSpace runOneW = .error (.ConfigurationError "eps") ∧
    ∃ table, gridsearch gridExample runOneW = .ok table ∧ table.length = 4 ∧
      ([("batch_size", PVal.num 30), ("policy", PVal.str "epsGreedy")],
        (.error (.EnvironmentError "simulator crash") :
          Except RunError EvalResult)) ∈ table ∧
      ([("batch_size", PVal.num 50), ("policy", PVal.str "linDecEpsGreedy")],
        (.ok ⟨42⟩ : Except RunError EvalResult)) ∈ table := by
  have hbad := (claim_C9 badSpace runOneW).1 (.ConfigurationError "eps") (by rfl)
  have h := (claim_C9 gridExample runOneW).2 (by rfl)
  obtain ⟨hlen, hmem⟩ := h.2 _ h.1
  refine ⟨hbad, (iter_params gridExample).map (fun c => (c, runOneW c)), h.1,
    by rw [hlen]; rfl, ?_, ?_⟩
  · have := hmem [("batch_size", PVal.num 30), ("policy", PVal.str "epsGreedy")]
      (by decide)
    simpa [runOneW] using this
  · have := hmem [("batch_size", PVal.num 50), ("policy", PVal.str "linDecEpsGreedy")]
      (by decide)
    simpa [runOneW] using this

theorem iter_params_keys :
    ∀ (space : List (String × List PVal)) (c : List (String × PVal)),
      c ∈ iter_params space → c.map Prod.fst = space.map Prod.fst := by
  intro space
  induction space with
  | nil =>
    intro c hc
    simp only [iter_params, List.mem_singleton] at hc
    subst hc
    rfl
  | cons kv rest ih =>
    obtain ⟨k, vs⟩ := kv
    intro c hc
    simp only [iter_params, List.mem_flatMap, List.mem_map] at hc
    obtain ⟨v, hv, c', hc', rfl⟩ := hc
    simp [ih c' hc']

theorem lookup_eq_none_of_not_mem_keys :
    ∀ (c : List (String × PVal)) (k : String),
      k ∉ c.map Prod.fst → c.lookup k = none := by
  intro c
  induction c with
  | nil => intro k _; rfl
  | cons p rest ih =>
    intro k hk
    simp only [List.map_cons, List.mem_cons] at hk
    push_neg at hk
    have hbeq : (k == p.1) = false := beq_eq_false_iff_ne.mpr hk.1
    obtain ⟨k', v⟩ := p
    simp only [List.lookup]
    simp only at hbeq
    rw [hbeq]
    exact ih k hk.2

theorem lookup_map_self (f : String → PVal) :
    ∀ (ks : List String) (k0 : String), k0 ∈ ks →
      (ks.map (fun k => (k, f k))).lookup k0 = some (f k0) := by
  intro ks
  induction ks with
  | nil => intro k0 hk0; simp at hk0
  | cons k ks ih =>
    intro k0 hk0
    by_cases he : k0 = k
    · subst he
      simp [List.lookup]
    · have hbeq : (k0 == k) = false := beq_eq_false_iff_ne.mpr he
      have hmem : k0 ∈ ks := by
        rcases List.mem_cons.mp hk0 with h | h
        · exact absurd h he
        · exact h
      simp only [List.map_cons, List.lookup, hbeq]
      exact ih k0 hmem

theorem validateSpace_ok :
    ∀ (space : List (String × List PVal)),
      (∀ kv ∈ space, kv.2 ≠ []) → validateSpace space = .ok () := by
  intro space
  induction space with
  | nil => intro _; rfl
  | cons kv rest ih =>
    intro h
    obtain ⟨k, vs⟩ := kv
    have hne : vs ≠ [] := h (k, vs) (List.mem_cons_self _ _)
    have hempty : vs.isEmpty = false := by
      cases vs with
      | nil => exact absurd rfl hne
      | cons a l => rfl
    simp only [validateSpace, hempty, Bool.false_eq_true, if_false]
    exact ih (fun kv hkv => h kv (List.mem_cons_of_mem _ hkv))

/-- C10: a parameter space whose candidate lists are nonempty passes
configuration-time validation even when it omits recognized hyperparameters,
and the grid expansion still yields fully-resolved run configurations: every
resolved configuration binds exactly the recognized keys, each key to the
caller's chosen candidate when the key was supplied and to its default value
when the key was omitted — never failing with a `ConfigurationError`. -/
theorem claim_C10 (d : String → PVal) (space : List (String × List PVal)) :
    ((∀ kv ∈ space, kv.2 ≠ []) → validateSpace space = .ok ()) ∧
    ∀ c ∈ iter_params space,
      (resolveConfig d c).map Prod.fst = recognizedKeys ∧
      (∀ k ∈ recognizedKeys,
        (resolveConfig d c).lookup k = some ((c.lookup k).getD (d k))) ∧
      (∀ k ∈ recognizedKeys, k ∉ space.map Prod.fst →
        (resolveConfig d c).lookup k = some (d k)) := by
  refine ⟨validateSpace_ok space, ?_⟩
  intro c hc
  refine ⟨?_, ?_, ?_⟩
  · simp [resolveConfig, List.map_map, Function.comp_def]
  · intro k hk
    exact lookup_map_self _ recognizedKeys k hk
  · intro k hk hnot
    have hkeys := iter_params_keys space c hc
    have hnone : c.lookup k = none := by
      apply lookup_eq_none_of_not_mem_keys
      rw [hkeys]
      exact hnot
    have := lookup_map_self (fun k => (c.lookup k).getD (d k)) recognizedKeys k hk
    rw [resolveConfig, this]
    simp only [hnone, Option.getD_none]

/-- C10 witness: the grid-search notebook's space (which omits
`num_burn_in`, `model_checkpoint` and six more recognized keys) validates
without a `ConfigurationError`; its first expanded configuration resolves to
bind exactly the recognized keys, with the omitted `num_burn_in` and
`model_checkpoint` bound to their defaults and the supplied `batch_size`
kept at the chosen candidate 30. -/
theorem claim_C10_witness :
    validateSpace gridSpaceFull = .ok () ∧
    (resolveConfig dflt c0).map Prod.fst = recognizedKeys ∧
    (resolveConfig dflt c0).lookup "num_burn_in" = some (dflt "num_burn_in") ∧
    (resolveConfig dflt c0).lookup "model_checkpoint" =
      some (dflt "model_checkpoint") ∧
    (resolveConfig dflt c0).lookup "batch_size" = some (PVal.num 30) := by
  have h := claim_C10 dflt gridSpaceFull
  have hc0 : c0 ∈ iter_params gridSpaceFull := List.Mem.head _
  obtain ⟨hmap, hall, homit⟩ := h.2 c0 hc0
  refine ⟨h.1 (by decide), hmap, ?_, ?_, ?_⟩
  · exact homit "num_burn_in" (by decide) (by decide)
  · exact homit "model_checkpoint" (by decide) (by decide)
  · rw [hall "batch_size" (by decide)]
    rfl
